import Mathlib

/-!
Verification of the AEI engine bridge (`ArimaaAnalyzer.Maui/Aiexecutables/mypy.py`).

The script launches an Arimaa engine, drains its stdout on a background
thread into a `queue.Queue`, and runs a sequential protocol driver
(handshake, ready-check, setup, search, shutdown).  We embed:

* the output drain `enqueue_output` at the byte level: `readline`-style
  chunking, strict UTF-8 decoding to code points (Python `str` values are
  sequences of code points), and `rstrip("\n")`;
* the command sender `send` over an explicit stdin-stream state with
  pipe failure semantics;
* the blocking `queue.Queue.get` as a fuel-indexed wait loop over a
  schedule of future producer puts;
* the protocol driver's three consuming loops (`aeiok` wait, `readyok`
  wait, `bestmove` poll) and the whole scripted session.

Machine strings are modelled as Lean `String`s on the driver side and as
lists of Unicode code points (`List Nat`) on the drain side.
-/

set_option autoImplicit false

namespace Mypy

/-! ### Output drain, byte level (`enqueue_output`, mypy.py lines 6-9) -/

/-- Is `c` a UTF-8 continuation byte (`0x80`-`0xBF`)? -/
def contB (c : Nat) : Bool := 0x80 ≤ c && c ≤ 0xBF

/-- Valid range of the first continuation byte after a three-byte lead
`b`: excludes overlong encodings (lead `0xE0`) and surrogates (lead
`0xED`), as Python's strict decoder does. -/
def cond3 (b c : Nat) : Bool :=
  if b = 0xE0 then 0xA0 ≤ c && c ≤ 0xBF
  else if b = 0xED then 0x80 ≤ c && c ≤ 0x9F
  else contB c

/-- Valid range of the first continuation byte after a four-byte lead
`b`: excludes overlong encodings (lead `0xF0`) and code points beyond
`U+10FFFF` (lead `0xF4`). -/
def cond4 (b c : Nat) : Bool :=
  if b = 0xF0 then 0x90 ≤ c && c ≤ 0xBF
  else if b = 0xF4 then 0x80 ≤ c && c ≤ 0x8F
  else contB c

/-- Finish a two-byte sequence with lead `b`. -/
def dec2 (b : Nat) : List Nat → Option (Nat × List Nat)
  | c :: bs2 =>
    if contB c then some ((b - 0xC0) * 64 + (c - 0x80), bs2) else none
  | [] => none

/-- Finish a three-byte sequence with lead `b`. -/
def dec3 (b : Nat) : List Nat → Option (Nat × List Nat)
  | c :: d :: bs2 =>
    if cond3 b c && contB d then
      some ((b - 0xE0) * 4096 + (c - 0x80) * 64 + (d - 0x80), bs2)
    else none
  | _ => none

/-- Finish a four-byte sequence with lead `b`. -/
def dec4 (b : Nat) : List Nat → Option (Nat × List Nat)
  | c :: d :: e :: bs2 =>
    if cond4 b c && contB d && contB e then
      some ((b - 0xF0) * 262144 + (c - 0x80) * 4096
              + (d - 0x80) * 64 + (e - 0x80), bs2)
    else none
  | _ => none

/-- Decode one UTF-8-encoded code point from the front of a byte list,
returning the code point and the remaining bytes, or `none` on malformed
input (truncated sequence, bad continuation byte, overlong form,
surrogate, out-of-range lead byte) — exactly the sequences Python's
strict `bytes.decode("utf-8")` rejects. -/
def decodeOne : List Nat → Option (Nat × List Nat)
  | [] => none
  | b :: bs =>
    if b < 0x80 then some (b, bs)
    else if 0xC2 ≤ b && b ≤ 0xDF then dec2 b bs
    else if 0xE0 ≤ b && b ≤ 0xEF then dec3 b bs
    else if 0xF0 ≤ b && b ≤ 0xF4 then dec4 b bs
    else none

/-- Iterate `decodeOne` until the bytes are exhausted.  `fuel` bounds the
number of code points decoded; since each step consumes at least one
byte, fuel equal to the byte count always suffices. -/
def decodeLoop : Nat → List Nat → Option (List Nat)
  | _, [] => some []
  | 0, _ :: _ => none
  | fuel + 1, b :: bs =>
    (decodeOne (b :: bs)).bind
      (fun p => (decodeLoop fuel p.2).map (fun l => p.1 :: l))

/-- Strict UTF-8 decoding of a byte list to the list of decoded code
points, as performed by Python's `bytes.decode("utf-8")`: `none` models
the `UnicodeDecodeError` raised on malformed input. -/
def utf8DecodeCp (bs : List Nat) : Option (List Nat) :=
  decodeLoop bs.length bs

/-- Python `str.rstrip("\n")` on a code-point list: remove every trailing
newline (code point `10`), leaving all other trailing characters. -/
def rstripNL (l : List Nat) : List Nat :=
  (l.reverse.dropWhile (fun c => c = 10)).reverse

/-- `readline`-style chunking of a raw byte stream: each returned chunk
ends with the terminator byte `10` it was cut at, except that a final
unterminated fragment (nonempty, when the stream closes without a final
terminator) is returned as-is, exactly as `stream.readline` yields it
before returning `b""` at end-of-stream.  `acc` holds the bytes of the
current line so far, in reverse. -/
def splitAfterNL (acc : List Nat) : List Nat → List (List Nat)
  | [] => if acc = [] then [] else [acc.reverse]
  | b :: bs =>
    if b = 10 then (acc.reverse ++ [10]) :: splitAfterNL [] bs
    else splitAfterNL (b :: acc) bs

/-- The successive values of `iter(stream.readline, b"")` on a byte
stream. -/
def readlineChunks (bs : List Nat) : List (List Nat) :=
  splitAfterNL [] bs

/-- The drain loop body applied to the successive `readline` chunks:
each chunk is decoded strictly and `rstrip("\n")`-ed, then put on the
queue.  A decode failure raises `UnicodeDecodeError` in the drain thread,
which terminates the loop: no further chunk is processed.  Returns the
lines actually enqueued and whether the drain crashed. -/
def drainRun : List (List Nat) → List (List Nat) × Bool
  | [] => ([], false)
  | ch :: chs =>
    match utf8DecodeCp ch with
    | none => ([], true)
    | some cps =>
      let rest := drainRun chs
      (rstripNL cps :: rest.1, rest.2)

/-- `enqueue_output(stream, q)` on a complete byte stream: the sequence
of lines put on `q` (as code-point lists), plus a flag recording whether
the drain thread died with a `UnicodeDecodeError`. -/
def enqueueOutput (bs : List Nat) : List (List Nat) × Bool :=
  drainRun (readlineChunks bs)

/-- Modelled from the spec: "splits it into lines" / "For all sequences
of raw bytes fed to the Output Drain containing n terminator bytes,
exactly n Line values are produced, in original order, each without a
trailing terminator", with the final unterminated fragment (if nonempty)
as one extra part.  Splits the stream at terminator bytes, the
terminators themselves belonging to no part. -/
def specSplitAux (acc : List Nat) : List Nat → List (List Nat)
  | [] => if acc = [] then [] else [acc.reverse]
  | b :: bs =>
    if b = 10 then acc.reverse :: specSplitAux [] bs
    else specSplitAux (b :: acc) bs

/-- The spec-side line parts of a byte stream: one part per terminator
byte, in order, plus the final fragment when the stream does not end at
a terminator. -/
def specLineSplit (bs : List Nat) : List (List Nat) :=
  specSplitAux [] bs

/-- Does the byte stream end in an unterminated fragment? -/
def hasFragment (bs : List Nat) : Bool :=
  match bs.getLast? with
  | some b => b ≠ 10
  | none => false

/-- A byte stream in which every logical line is terminated by CRLF
(`\r\n`), i.e. bytes `13, 10`. -/
def crlfStream : List (List Nat) → List Nat
  | [] => []
  | s :: rest => s ++ [13, 10] ++ crlfStream rest

/-! ### Command sender (`send`, mypy.py lines 27-29) -/

/-- UTF-8 encoding of one character, as produced by Python
`str.encode("utf-8")`. -/
def charUtf8 (c : Char) : List Nat :=
  let n := c.toNat
  if n < 0x80 then [n]
  else if n < 0x800 then [0xC0 + n / 64, 0x80 + n % 64]
  else if n < 0x10000 then
    [0xE0 + n / 4096, 0x80 + (n / 64) % 64, 0x80 + n % 64]
  else
    [0xF0 + n / 262144, 0x80 + (n / 4096) % 64, 0x80 + (n / 64) % 64,
     0x80 + n % 64]

/-- UTF-8 encoding of a character list. -/
def utf8Bytes : List Char → List Nat
  | [] => []
  | c :: cs => charUtf8 c ++ utf8Bytes cs

/-- `text.encode("utf-8")`. -/
def strToUtf8 (s : String) : List Nat :=
  utf8Bytes s.data

/-- Errors the Python runtime can raise on the send path. -/
inductive PyError where
  | brokenPipe
deriving DecidableEq, Repr

/-- State of the engine's stdin stream (`engine.stdin`, a buffered
writer over a pipe).  `closed` records that the peer end is gone (the
stream was closed or the child process exited); `buffered` holds bytes
written but not yet flushed; `delivered` holds bytes the child can
observe. -/
structure StdinState where
  closed : Bool
  buffered : List Nat
  delivered : List Nat
deriving DecidableEq, Repr

/-- `engine.stdin.write(bytes)`.  Writing against a pipe whose peer has
closed raises `BrokenPipeError` (modelled from the spec: "Fails with
BrokenPipeError if the input stream is already closed"); otherwise the
bytes join the write buffer. -/
def stdinWrite (st : StdinState) (bs : List Nat) : Except PyError StdinState :=
  if st.closed then Except.error PyError.brokenPipe
  else Except.ok { st with buffered := st.buffered ++ bs }

/-- `engine.stdin.flush()`: deliver all buffered bytes to the child. -/
def stdinFlush (st : StdinState) : Except PyError StdinState :=
  if st.closed then Except.error PyError.brokenPipe
  else Except.ok { st with buffered := [], delivered := st.delivered ++ st.buffered }

/-- `send(cmd)`: `engine.stdin.write((cmd + "\n").encode("utf-8"))`
followed by `engine.stdin.flush()`.  There is no exception handler, so a
pipe failure propagates to the caller. -/
def send (st : StdinState) (cmd : String) : Except PyError StdinState := do
  let st1 ← stdinWrite st (strToUtf8 (cmd ++ "\n"))
  stdinFlush st1

/-! ### Line channel (`queue.Queue`, mypy.py lines 22-25) -/

/-- The blocking `q.get()` of a `queue.Queue`, viewed as a wait loop:
if an item is already queued it is returned at once; otherwise the call
waits, and on each wait cycle `k` either a producer `put` arrives
(`puts k = some l`) and is returned, or the wait continues.  `fuel`
bounds how many wait cycles we observe; `none` means the call is still
blocked after `fuel` cycles.  `queue.Queue` has no close operation, so
nothing in the state distinguishes a terminated producer: only an actual
`put` can end the wait. -/
def blockingGet : List String → (Nat → Option String) → Nat → Option String
  | l :: _, _, _ => some l
  | [], _, 0 => none
  | [], puts, fuel + 1 =>
    match puts 0 with
    | some l => some l
    | none => blockingGet [] (fun k => puts (k + 1)) fuel

/-! ### Protocol driver (mypy.py lines 31-80) -/

/-- The ASCII whitespace characters removed by Python `str.strip()`
(restricted to the ASCII range; the engine protocol is ASCII). -/
def isPyWs (c : Char) : Bool :=
  c = ' ' || c = '\t' || c = '\n' || c = '\r' || c = '\x0b' || c = '\x0c'

/-- Python `line.strip()`: remove leading and trailing whitespace. -/
def pyStrip (s : String) : String :=
  String.mk (((s.data.dropWhile isPyWs).reverse.dropWhile isPyWs).reverse)

/-- Python `line.startswith(pre)` on character lists (first argument is
the candidate prefix). -/
def pyStartsWith : List Char → List Char → Bool
  | [], _ => true
  | _ :: _, [] => false
  | p :: ps, c :: cs => p = c && pyStartsWith ps cs

/-- `line.startswith("bestmove")`. -/
def isBestmoveLine (l : String) : Bool :=
  pyStartsWith "bestmove".data l.data

/-- One handshake wait loop (`while True: line = q.get(); ...
if line.strip() == sentinel: break`) run against the queue contents:
returns the consumed lines (in order, the matching line last) and the
remaining queue, or `none` when the queue runs dry and the loop blocks
forever on `q.get()`. -/
def waitFor (sentinel : String) : List String → Option (List String × List String)
  | [] => none
  | l :: ls =>
    if pyStrip l = sentinel then some ([l], ls)
    else (waitFor sentinel ls).map (fun p => (l :: p.1, p.2))

/-- The bestmove read loop (mypy.py lines 63-74) run against the queue
contents: skips lines until one satisfies `line.startswith("bestmove")`,
stores that line verbatim in `bestmove` and breaks.  Returns the
consumed lines, the stored line and the remaining queue; `none` when the
queue runs dry and the loop keeps polling. -/
def searchWait : List String → Option (List String × String × List String)
  | [] => none
  | l :: ls =>
    if isBestmoveLine l then some ([l], l, ls)
    else (searchWait ls).map (fun p => (l :: p.1, p.2.1, p.2.2))

/-- The bestmove read loop as the driver actually executes it: a poll
schedule `sched` gives the outcome of each `q.get(timeout=0.1)` call
(`none` is `queue.Empty`), and `fuel` counts poll cycles.  On `Empty`
the loop `continue`s; on a non-`bestmove` line it keeps waiting; the
only exit is a line starting with `"bestmove"`.  `none` means the loop
is still polling after `fuel` cycles. -/
def searchPollFuel : (Nat → Option String) → Nat → Option String
  | _, 0 => none
  | sched, fuel + 1 =>
    match sched 0 with
    | none => searchPollFuel (fun k => sched (k + 1)) fuel
    | some l =>
      if isBestmoveLine l then some l
      else searchPollFuel (fun k => sched (k + 1)) fuel

/-- The `setposition` command sent by the script, with the standard
initial board string. -/
def boardCmd : String :=
  "setposition g [rrrrrrrrhcdmedch                                HCDMEDCHRRRRRRRR]"

/-- Outcome of one scripted session. -/
structure RunResult where
  sent : List String
  seen : List String
  bestmove : Option String
  leftover : List String
deriving DecidableEq, Repr

/-- The whole scripted session (mypy.py lines 31-79) run against the
sequence of lines the drain puts on the queue: send `"aei"`, wait for
`aeiok`; send `"isready"`, wait for `readyok`; send the three setup
commands and `"go"`; poll until a `bestmove` line; send `"quit"`.
`sent` is every command passed to `send`, in order; `seen` is every line
the driver popped (each is printed with the `ENGINE:` tag), in order;
`none` when some wait loop exhausts the queue and blocks. -/
def script (qlines : List String) : Option RunResult := do
  let r1 ← waitFor "aeiok" qlines
  let r2 ← waitFor "readyok" r1.2
  let r3 ← searchWait r2.2
  some { sent := ["aei", "isready", "newgame", boardCmd,
                  "setoption name tcmove value 10", "go", "quit"],
         seen := r1.1 ++ r2.1 ++ r3.1,
         bestmove := some r3.2.1,
         leftover := r3.2.2 }

/-! ### Helper lemmas -/

theorem utf8Bytes_append (l1 l2 : List Char) :
    utf8Bytes (l1 ++ l2) = utf8Bytes l1 ++ utf8Bytes l2 := by
  induction l1 with
  | nil => simp [utf8Bytes]
  | cons c cs ih => simp [utf8Bytes, ih]

theorem strToUtf8_newline (s : String) :
    strToUtf8 (s ++ "\n") = strToUtf8 s ++ [10] := by
  have h : (s ++ "\n").data = s.data ++ ['\n'] := String.data_append s "\n"
  simp [strToUtf8, h, utf8Bytes_append]
  rfl

theorem searchPoll_const_none (n : Nat) :
    searchPollFuel (fun _ => none) n = none := by
  induction n with
  | zero => rfl
  | succ n ih => simpa [searchPollFuel] using ih

theorem blockingGet_const_none (n : Nat) :
    blockingGet [] (fun _ => none) n = none := by
  induction n with
  | zero => rfl
  | succ n ih => simpa [blockingGet] using ih

/-! ### C7, C8: the command sender -/

/-- C7: once the engine's input stream is closed (the pipe's peer is
gone, e.g. the process exited before shutdown), any `send` fails with
`BrokenPipeError`; it is never a silent no-op.  The code installs no
exception handler around `write`/`flush`, so the error propagates. -/
theorem send_closed_pipe_error (st : StdinState) (cmd : String)
    (h : st.closed = true) :
    send st cmd = Except.error PyError.brokenPipe := by
  simp [send, stdinWrite, h, Bind.bind, Except.bind]

theorem send_closed_pipe_error_witness :
    (StdinState.mk true [] []).closed = true ∧
      send (StdinState.mk true [] []) "go" = Except.error PyError.brokenPipe :=
  ⟨rfl, send_closed_pipe_error (StdinState.mk true [] []) "go" rfl⟩

/-- C8: on an open, fully flushed stream, `send` delivers to the child
exactly the UTF-8 bytes of the command text followed by exactly one
newline terminator, and leaves no byte buffered (the flush is
immediate). -/
theorem send_writes_exact_bytes (st : StdinState) (cmd : String)
    (hO : st.closed = false) (hB : st.buffered = []) :
    send st cmd =
      Except.ok (StdinState.mk false [] (st.delivered ++ strToUtf8 cmd ++ [10])) := by
  obtain ⟨c, b, d⟩ := st
  simp only at hO hB
  subst hO hB
  simp [send, stdinWrite, stdinFlush, strToUtf8_newline, Bind.bind, Except.bind,
        List.append_assoc]

theorem send_writes_exact_bytes_witness :
    (StdinState.mk false [] []).closed = false ∧
      (StdinState.mk false [] []).buffered = [] ∧
      send (StdinState.mk false [] []) "go" =
        Except.ok (StdinState.mk false [] [103, 111, 10]) :=
  ⟨rfl, rfl, by
    have h := send_writes_exact_bytes (StdinState.mk false [] []) "go" rfl rfl
    exact h.trans (by rfl)⟩

/-! ### C1: the bestmove polling loop has no deadline -/

/-- C1 (counterexample): with a search deadline configured (the script
sends `setoption name tcmove value 10`) but no `bestmove` line ever
arriving — every poll raises `queue.Empty` — there is NO number of poll
cycles after which the loop has exited: it neither returns nor raises
any timeout error, contradicting the claim that a `ProtocolTimeoutError`
is raised within a bounded, deterministic number of poll cycles. -/
theorem search_poll_no_exit_cex :
    ¬ ∃ n : Nat, (searchPollFuel (fun _ => none) n).isSome = true := by
  rintro ⟨n, h⟩
  rw [searchPoll_const_none n] at h
  simp at h

/-- C1 (amended): if no line beginning with `"bestmove"` ever arrives,
the reference driver polls forever: every `queue.Empty` is answered by
`continue`, no deadline is tracked, and no `ProtocolTimeoutError` (or
any other exit) occurs after any number of poll cycles. -/
theorem search_poll_no_deadline (sched : Nat → Option String) (fuel : Nat)
    (h : ∀ k l, sched k = some l → isBestmoveLine l = false) :
    searchPollFuel sched fuel = none := by
  induction fuel generalizing sched with
  | zero => rfl
  | succ n ih =>
    rw [searchPollFuel]
    cases hs : sched 0 with
    | none => exact ih (fun k => sched (k + 1)) (fun k l hl => h (k + 1) l hl)
    | some l =>
      simp only [h 0 l hs, Bool.false_eq_true, if_false]
      exact ih (fun k => sched (k + 1)) (fun k l hl => h (k + 1) l hl)

theorem search_poll_no_deadline_witness :
    searchPollFuel (fun _ => none) 5 = none :=
  search_poll_no_deadline (fun _ => none) 5 (fun _ _ hl => by cases hl)

/-! ### C5: a blocking pop is not released by drain termination -/

/-- C5 (counterexample): the `queue.Queue` has no close operation, so
when the drain thread has terminated (hence no `put` ever arrives: the
put schedule is constantly `none`) and the queue is empty, the blocking
`q.get()` is still waiting after every number of wait cycles — it does
block forever, contradicting the claim. -/
theorem pop_blocked_forever_cex :
    ¬ ∃ n : Nat, (blockingGet [] (fun _ => none) n).isSome = true := by
  rintro ⟨n, h⟩
  rw [blockingGet_const_none n] at h
  simp at h

/-- C5 (amended): a blocking `pop` returns exactly when a line is
available — immediately when the queue is nonempty, and otherwise only
if some future `put` arrives.  Drain termination is invisible to the
queue: if no `put` ever arrives, the blocking `pop` is still waiting
after any number of wait cycles. -/
theorem pop_blocks_without_put (puts : Nat → Option String) (n : Nat)
    (h : ∀ k, puts k = none) :
    blockingGet [] puts n = none ∧
      ∀ (l : String) (rest : List String), blockingGet (l :: rest) puts n = some l := by
  constructor
  · induction n generalizing puts with
    | zero => rfl
    | succ m ih =>
      rw [blockingGet, h 0]
      exact ih (fun k => puts (k + 1)) (fun k => h (k + 1))
  · intro l rest
    cases n <;> rfl

theorem pop_blocks_without_put_witness :
    blockingGet [] (fun _ => none) 9 = none ∧
      blockingGet ["readyok"] (fun _ => none) 9 = some "readyok" :=
  ⟨(pop_blocks_without_put (fun _ => none) 9 (fun _ => rfl)).1,
   (pop_blocks_without_put (fun _ => none) 9 (fun _ => rfl)).2 "readyok" []⟩

/-! ### C3: sentinel comparison strips all whitespace, not only newlines -/

/-- C3 (counterexample): the INIT wait loop compares `line.strip() ==
"aeiok"`, and Python `str.strip()` removes ALL leading and trailing
whitespace, not only newlines.  On the whitespace-padded line
`"aeiok "` (which is a different string from `"aeiok"`) the loop exits
immediately instead of continuing to wait. -/
theorem padded_sentinel_matches_cex :
    waitFor "aeiok" ["aeiok "] = some (["aeiok "], []) ∧
      pyStrip "aeiok " = "aeiok" ∧ ("aeiok " : String) ≠ "aeiok" := by
  refine ⟨?_, by decide, by decide⟩
  simp [waitFor, show pyStrip "aeiok " = "aeiok" from by decide]

/-- C3 (amended): the INIT and READY_CHECK loops exit exactly when a
popped line, stripped of ALL leading and trailing whitespace by
`str.strip()`, equals the sentinel (`"aeiok"` resp. `"readyok"`); lines
that do not strip to the sentinel are consumed and the wait continues,
and whitespace-padded sentinel variants DO match. -/
theorem wait_exits_on_stripped_match (sentinel l : String)
    (pre rest : List String)
    (hpre : ∀ p ∈ pre, pyStrip p ≠ sentinel) (hl : pyStrip l = sentinel) :
    waitFor sentinel (pre ++ l :: rest) = some (pre ++ [l], rest) := by
  induction pre with
  | nil => simp [waitFor, hl]
  | cons p pre' ih =>
    have hp : pyStrip p ≠ sentinel := hpre p (List.mem_cons_self p pre')
    have ih' := ih (fun q hq => hpre q (List.mem_cons_of_mem p hq))
    simp [waitFor, hp, ih']

theorem wait_exits_on_stripped_match_witness :
    waitFor "aeiok"
        (["protocol-version 1", "id name Foo"] ++ "aeiok  " :: ["readyok"]) =
      some (["protocol-version 1", "id name Foo"] ++ ["aeiok  "], ["readyok"]) :=
  wait_exits_on_stripped_match "aeiok" "aeiok  "
    ["protocol-version 1", "id name Foo"] ["readyok"] (by decide) (by decide)

/-! ### C4: the stored result is the complete sentinel line -/

/-- C4 (counterexample): in the full-session scenario the driver stores
the COMPLETE line `"bestmove Hh2n"` (the code keeps `line` verbatim:
`bestmove = line`), so the result text is not the bare move `"Hh2n"`
claimed by the spec's Scenario 2. -/
theorem session_result_text_cex :
    (script ["protocol-version 1", "id name Foo", "aeiok", "readyok",
             "bestmove Hh2n"]).map RunResult.bestmove =
        some (some "bestmove Hh2n") ∧
      (script ["protocol-version 1", "id name Foo", "aeiok", "readyok",
               "bestmove Hh2n"]).map RunResult.bestmove ≠
        some (some "Hh2n") := by
  constructor
  · decide
  · decide

/-- C4 (amended): in a full session, after SETUP and SEARCHING, feeding
the engine output line `"bestmove Hh2n"` yields a result whose text is
the complete sentinel line `"bestmove Hh2n"` (with the move text
embedded after the `"bestmove"` marker). -/
theorem session_full_sentinel_line :
    script ["protocol-version 1", "id name Foo", "aeiok", "readyok",
            "bestmove Hh2n"] =
      some (RunResult.mk
        ["aei", "isready", "newgame", boardCmd,
         "setoption name tcmove value 10", "go", "quit"]
        ["protocol-version 1", "id name Foo", "aeiok", "readyok",
         "bestmove Hh2n"]
        (some "bestmove Hh2n") []) := by
  decide

/-! ### C9: FIFO delivery from drain to driver -/

theorem waitFor_consumed_append (sentinel : String) :
    ∀ (ls : List String) (c r : List String),
      waitFor sentinel ls = some (c, r) → c ++ r = ls := by
  intro ls
  induction ls with
  | nil => intro c r h; cases h
  | cons l ls' ih =>
    intro c r h
    rw [waitFor] at h
    by_cases hl : pyStrip l = sentinel
    · rw [if_pos hl] at h
      cases h
      rfl
    · rw [if_neg hl] at h
      cases hw : waitFor sentinel ls' with
      | none => rw [hw] at h; cases h
      | some p =>
        rw [hw] at h
        cases h
        have := ih p.1 p.2 (by rw [hw])
        simp [← this]

theorem searchWait_consumed_append :
    ∀ (ls : List String) (c : List String) (b : String) (r : List String),
      searchWait ls = some (c, b, r) → c ++ r = ls := by
  intro ls
  induction ls with
  | nil => intro c b r h; cases h
  | cons l ls' ih =>
    intro c b r h
    rw [searchWait] at h
    by_cases hl : isBestmoveLine l = true
    · rw [if_pos hl] at h
      cases h
      rfl
    · rw [if_neg hl] at h
      cases hw : searchWait ls' with
      | none => rw [hw] at h; cases h
      | some p =>
        rw [hw] at h
        cases h
        have := ih p.1 p.2.1 p.2.2 (by rw [hw])
        simp [← this]

/-- C9: every line is delivered to the protocol driver in exactly the
FIFO order the drain produced it, across all protocol states: in any
completed session, the lines the driver observed (`seen`) followed by
the lines still queued (`leftover`) reconstitute the produced queue
contents exactly — nothing skipped, reordered, or coalesced. -/
theorem lines_delivered_in_order (qlines : List String) (res : RunResult)
    (h : script qlines = some res) :
    res.seen ++ res.leftover = qlines := by
  rw [script] at h
  simp only [Option.bind_eq_bind, Option.bind_eq_some, Option.some.injEq] at h
  obtain ⟨r1, h1, r2, h2, r3, h3, hres⟩ := h
  subst hres
  have e1 := waitFor_consumed_append "aeiok" qlines r1.1 r1.2 h1
  have e2 := waitFor_consumed_append "readyok" r1.2 r2.1 r2.2 h2
  have e3 := searchWait_consumed_append r2.2 r3.1 r3.2.1 r3.2.2 h3
  simp only []
  rw [List.append_assoc, List.append_assoc, e3, e2, e1]

theorem lines_delivered_in_order_witness :
    RunResult.seen
        (RunResult.mk
          ["aei", "isready", "newgame", boardCmd,
           "setoption name tcmove value 10", "go", "quit"]
          ["aeiok", "readyok", "bestmove x"] (some "bestmove x") ["tail"]) ++
      RunResult.leftover
        (RunResult.mk
          ["aei", "isready", "newgame", boardCmd,
           "setoption name tcmove value 10", "go", "quit"]
          ["aeiok", "readyok", "bestmove x"] (some "bestmove x") ["tail"]) =
      ["aeiok", "readyok", "bestmove x", "tail"] :=
  lines_delivered_in_order ["aeiok", "readyok", "bestmove x", "tail"] _ (by decide)

/-! ### Drain helper lemmas and the drain claims -/


set_option maxRecDepth 8192
set_option maxHeartbeats 1000000

theorem dec2_some (b : Nat) (bs : List Nat) (p : Nat × List Nat)
    (h : dec2 b bs = some p) :
    ∃ c bs2, bs = c :: bs2 ∧ contB c = true ∧
      p = ((b - 0xC0) * 64 + (c - 0x80), bs2) := by
  cases bs with
  | nil => exact Option.noConfusion h
  | cons c bs2 =>
    simp only [dec2] at h
    by_cases hc : contB c = true
    · rw [if_pos hc] at h
      exact ⟨c, bs2, rfl, hc, (Option.some.inj h).symm⟩
    · rw [if_neg hc] at h
      exact Option.noConfusion h

theorem dec3_some (b : Nat) (bs : List Nat) (p : Nat × List Nat)
    (h : dec3 b bs = some p) :
    ∃ c d bs2, bs = c :: d :: bs2 ∧ cond3 b c = true ∧ contB d = true ∧
      p = ((b - 0xE0) * 4096 + (c - 0x80) * 64 + (d - 0x80), bs2) := by
  cases bs with
  | nil => exact Option.noConfusion h
  | cons c bs1 =>
    cases bs1 with
    | nil => exact Option.noConfusion h
    | cons d bs2 =>
      simp only [dec3] at h
      by_cases hcd : (cond3 b c && contB d) = true
      · rw [if_pos hcd] at h
        rw [Bool.and_eq_true] at hcd
        exact ⟨c, d, bs2, rfl, hcd.1, hcd.2, (Option.some.inj h).symm⟩
      · rw [if_neg hcd] at h
        exact Option.noConfusion h

theorem dec4_some (b : Nat) (bs : List Nat) (p : Nat × List Nat)
    (h : dec4 b bs = some p) :
    ∃ c d e bs2, bs = c :: d :: e :: bs2 ∧ cond4 b c = true ∧
      contB d = true ∧ contB e = true ∧
      p = ((b - 0xF0) * 262144 + (c - 0x80) * 4096
             + (d - 0x80) * 64 + (e - 0x80), bs2) := by
  cases bs with
  | nil => exact Option.noConfusion h
  | cons c bs1 =>
    cases bs1 with
    | nil => exact Option.noConfusion h
    | cons d bs1 =>
      cases bs1 with
      | nil => exact Option.noConfusion h
      | cons e bs2 =>
        simp only [dec4] at h
        by_cases hcde : (cond4 b c && contB d && contB e) = true
        · rw [if_pos hcde] at h
          rw [Bool.and_eq_true, Bool.and_eq_true] at hcde
          exact ⟨c, d, e, bs2, rfl, hcde.1.1, hcde.1.2, hcde.2,
            (Option.some.inj h).symm⟩
        · rw [if_neg hcde] at h
          exact Option.noConfusion h

theorem cond3_ge (b c : Nat) (hb : (0xE0 ≤ b && b ≤ 0xEF) = true)
    (hc : cond3 b c = true) :
    0x80 ≤ (b - 0xE0) * 4096 + (c - 0x80) * 64 := by
  rw [Bool.and_eq_true, decide_eq_true_eq, decide_eq_true_eq] at hb
  rw [cond3] at hc
  by_cases h0 : b = 0xE0
  · rw [if_pos h0] at hc
    rw [Bool.and_eq_true, decide_eq_true_eq, decide_eq_true_eq] at hc
    omega
  · rw [if_neg h0] at hc
    omega

theorem cond4_ge (b c : Nat) (hb : (0xF0 ≤ b && b ≤ 0xF4) = true)
    (hc : cond4 b c = true) :
    0x80 ≤ (b - 0xF0) * 262144 + (c - 0x80) * 4096 := by
  rw [Bool.and_eq_true, decide_eq_true_eq, decide_eq_true_eq] at hb
  rw [cond4] at hc
  by_cases h0 : b = 0xF0
  · rw [if_pos h0] at hc
    rw [Bool.and_eq_true, decide_eq_true_eq, decide_eq_true_eq] at hc
    omega
  · rw [if_neg h0] at hc
    omega

theorem decodeOne_facts (bs : List Nat) (p : Nat × List Nat)
    (h : decodeOne bs = some p) :
    p.2.length < bs.length ∧ (∀ x ∈ p.2, x ∈ bs) ∧ (p.1 = 10 → 10 ∈ bs) ∧
      ∀ ys, decodeOne (bs ++ ys) = some (p.1, p.2 ++ ys) := by
  cases bs with
  | nil => exact Option.noConfusion h
  | cons b rest =>
    simp only [decodeOne] at h
    by_cases h1 : b < 0x80
    · rw [if_pos h1] at h
      cases (Option.some.inj h).symm
      refine ⟨by simp, fun x hx => List.mem_cons_of_mem b hx, ?_, ?_⟩
      · intro h10
        simp only at h10
        subst h10
        exact List.mem_cons_self 10 rest
      · intro ys
        simp only [List.cons_append, decodeOne, if_pos h1]
    · rw [if_neg h1] at h
      by_cases h2 : (0xC2 ≤ b && b ≤ 0xDF) = true
      · rw [if_pos h2] at h
        obtain ⟨c, bs2, hrest, hc, hp⟩ := dec2_some b rest p h
        subst hrest
        subst hp
        have hb2 := h2
        rw [Bool.and_eq_true, decide_eq_true_eq, decide_eq_true_eq] at hb2
        refine ⟨by simp only [List.length_cons]; omega, ?_, ?_, ?_⟩
        · intro x hx
          exact List.mem_cons_of_mem b (List.mem_cons_of_mem c hx)
        · intro h10
          simp only at h10
          omega
        · intro ys
          simp only [List.cons_append]
          simp [decodeOne, h1, h2, dec2, hc]
      · rw [if_neg h2] at h
        by_cases h3 : (0xE0 ≤ b && b ≤ 0xEF) = true
        · rw [if_pos h3] at h
          obtain ⟨c, d, bs2, hrest, hc, hd, hp⟩ := dec3_some b rest p h
          subst hrest
          subst hp
          have hge := cond3_ge b c h3 hc
          refine ⟨by simp only [List.length_cons]; omega, ?_, ?_, ?_⟩
          · intro x hx
            exact List.mem_cons_of_mem b
              (List.mem_cons_of_mem c (List.mem_cons_of_mem d hx))
          · intro h10
            simp only at h10
            omega
          · intro ys
            simp only [List.cons_append]
            simp [decodeOne, h1, h2, h3, dec3, hc, hd]
        · rw [if_neg h3] at h
          by_cases h4 : (0xF0 ≤ b && b ≤ 0xF4) = true
          · rw [if_pos h4] at h
            obtain ⟨c, d, e, bs2, hrest, hc, hd, he, hp⟩ := dec4_some b rest p h
            subst hrest
            subst hp
            have hge := cond4_ge b c h4 hc
            refine ⟨by simp only [List.length_cons]; omega, ?_, ?_, ?_⟩
            · intro x hx
              exact List.mem_cons_of_mem b (List.mem_cons_of_mem c
                (List.mem_cons_of_mem d (List.mem_cons_of_mem e hx)))
            · intro h10
              simp only at h10
              omega
            · intro ys
              simp only [List.cons_append]
              simp [decodeOne, h1, h2, h3, h4, dec4, hc, hd, he]
          · rw [if_neg h4] at h
            exact Option.noConfusion h

theorem decodeOne_consumes (bs : List Nat) (p : Nat × List Nat)
    (h : decodeOne bs = some p) : p.2.length < bs.length :=
  (decodeOne_facts bs p h).1

theorem decodeOne_rest_mem (bs : List Nat) (p : Nat × List Nat)
    (h : decodeOne bs = some p) : ∀ x ∈ p.2, x ∈ bs :=
  (decodeOne_facts bs p h).2.1

theorem decodeOne_mem_of_ten (bs : List Nat) (p : Nat × List Nat)
    (h : decodeOne bs = some p) (h10 : p.1 = 10) : 10 ∈ bs :=
  (decodeOne_facts bs p h).2.2.1 h10

theorem decodeOne_append (bs ys : List Nat) (p : Nat × List Nat)
    (h : decodeOne bs = some p) :
    decodeOne (bs ++ ys) = some (p.1, p.2 ++ ys) :=
  (decodeOne_facts bs p h).2.2.2 ys


theorem decodeLoop_fuel : ∀ (fuel fuel' : Nat) (xs : List Nat),
    xs.length ≤ fuel → xs.length ≤ fuel' → decodeLoop fuel xs = decodeLoop fuel' xs := by
  intro fuel
  induction fuel with
  | zero =>
    intro fuel' xs h _
    have hnil : xs = [] := List.eq_nil_of_length_eq_zero (Nat.le_zero.mp h)
    subst hnil
    cases fuel' <;> rfl
  | succ f ih =>
    intro fuel' xs h h'
    cases xs with
    | nil => cases fuel' <;> rfl
    | cons b bs =>
      cases fuel' with
      | zero => simp at h'
      | succ f' =>
        simp only [decodeLoop]
        cases hd : decodeOne (b :: bs) with
        | none => rfl
        | some p =>
          have hlen := decodeOne_consumes (b :: bs) p hd
          simp only [List.length_cons] at h h' hlen
          have e := ih f' p.2 (by omega) (by omega)
          simp [e]

theorem decodeLoop_append (ys ly : List Nat) (hy : decodeLoop ys.length ys = some ly) :
    ∀ (fuel : Nat) (xs lx : List Nat), xs.length ≤ fuel →
      decodeLoop fuel xs = some lx →
      decodeLoop (xs ++ ys).length (xs ++ ys) = some (lx ++ ly) := by
  intro fuel
  induction fuel with
  | zero =>
    intro xs lx h hx
    have hnil : xs = [] := List.eq_nil_of_length_eq_zero (Nat.le_zero.mp h)
    subst hnil
    cases hx
    simpa using hy
  | succ f ih =>
    intro xs lx h hx
    cases xs with
    | nil =>
      cases hx
      simpa using hy
    | cons b bs =>
      simp only [decodeLoop] at hx
      cases hd : decodeOne (b :: bs) with
      | none => rw [hd] at hx; simp at hx
      | some p =>
        rw [hd] at hx
        simp only [Option.some_bind] at hx
        obtain ⟨l', hl', hlx⟩ := Option.map_eq_some'.mp hx
        subst hlx
        have hlen := decodeOne_consumes (b :: bs) p hd
        simp only [List.length_cons] at h hlen
        have hrest := ih p.2 l' (by omega) hl'
        have hda := decodeOne_append (b :: bs) ys p hd
        rw [List.cons_append, List.length_cons, decodeLoop, ← List.cons_append, hda]
        simp only [Option.some_bind]
        rw [decodeLoop_fuel ((bs ++ ys).length) ((p.2 ++ ys).length) (p.2 ++ ys)
              (by simp only [List.length_append]; omega) (Nat.le_refl _)]
        rw [hrest]
        rfl

theorem utf8DecodeCp_appendCp (xs ys lx ly : List Nat)
    (hx : utf8DecodeCp xs = some lx) (hy : utf8DecodeCp ys = some ly) :
    utf8DecodeCp (xs ++ ys) = some (lx ++ ly) :=
  decodeLoop_append ys ly hy xs.length xs lx (Nat.le_refl _) hx

theorem decodeLoop_no_ten : ∀ (fuel : Nat) (xs l : List Nat),
    decodeLoop fuel xs = some l → 10 ∉ xs → 10 ∉ l := by
  intro fuel
  induction fuel with
  | zero =>
    intro xs l h _
    cases xs with
    | nil => cases h; simp
    | cons b bs => simp [decodeLoop] at h
  | succ f ih =>
    intro xs l h h10
    cases xs with
    | nil => cases h; simp
    | cons b bs =>
      simp only [decodeLoop] at h
      cases hd : decodeOne (b :: bs) with
      | none => rw [hd] at h; simp at h
      | some p =>
        rw [hd] at h
        simp only [Option.some_bind] at h
        obtain ⟨l', hl', hlx⟩ := Option.map_eq_some'.mp h
        subst hlx
        intro hmem
        cases List.mem_cons.mp hmem with
        | inl h1 =>
          exact h10 (decodeOne_mem_of_ten (b :: bs) p hd h1.symm)
        | inr h2 =>
          have h10' : 10 ∉ p.2 := fun hm => h10 (decodeOne_rest_mem (b :: bs) p hd 10 hm)
          exact ih p.2 l' hl' h10' h2

theorem utf8DecodeCp_no_ten (xs l : List Nat)
    (h : utf8DecodeCp xs = some l) (h10 : 10 ∉ xs) : 10 ∉ l :=
  decodeLoop_no_ten xs.length xs l h h10

theorem rstripNL_append_ten (l : List Nat) : rstripNL (l ++ [10]) = rstripNL l := by
  simp [rstripNL, List.dropWhile]

theorem rstripNL_of_no_ten (l : List Nat) (h : 10 ∉ l) : rstripNL l = l := by
  rw [rstripNL]
  cases hrev : l.reverse with
  | nil =>
    have hnil : l = [] := by simpa using congrArg List.reverse hrev
    subst hnil
    rfl
  | cons x m =>
    have hx : ¬(x = 10) := by
      intro hx10
      apply h
      subst hx10
      have : (10 : Nat) ∈ l.reverse := by rw [hrev]; exact List.mem_cons_self 10 m
      exact List.mem_reverse.mp this
    rw [List.dropWhile_cons, if_neg (by simpa using hx)]
    rw [← hrev, List.reverse_reverse]

theorem rstripNL_append_ne (l : List Nat) (a : Nat) (ha : ¬(a = 10)) :
    rstripNL (l ++ [a]) = l ++ [a] := by
  rw [rstripNL, List.reverse_append]
  simp only [List.reverse_cons, List.reverse_nil, List.nil_append, List.singleton_append]
  rw [List.dropWhile_cons, if_neg (by simpa using ha)]
  simp

theorem splitAfterNL_append_nl : ∀ (s acc t : List Nat), 10 ∉ s →
    splitAfterNL acc (s ++ 10 :: t) = (acc.reverse ++ s ++ [10]) :: splitAfterNL [] t := by
  intro s
  induction s with
  | nil =>
    intro acc t _
    simp [splitAfterNL]
  | cons x s' ih =>
    intro acc t h
    have hx : ¬(x = 10) := fun he => h (he ▸ List.mem_cons_self x s')
    rw [List.cons_append, splitAfterNL, if_neg hx,
      ih (x :: acc) t (fun hm => h (List.mem_cons_of_mem x hm))]
    simp

theorem specSplitAux_no_ten : ∀ (bs acc : List Nat), 10 ∉ acc →
    ∀ p ∈ specSplitAux acc bs, 10 ∉ p := by
  intro bs
  induction bs with
  | nil =>
    intro acc hacc p hp
    rw [specSplitAux] at hp
    by_cases h : acc = []
    · simp [h] at hp
    · rw [if_neg h] at hp
      have : p = acc.reverse := by simpa using hp
      subst this
      simpa using hacc
  | cons b bs' ih =>
    intro acc hacc p hp
    rw [specSplitAux] at hp
    by_cases hb : b = 10
    · rw [if_pos hb] at hp
      cases List.mem_cons.mp hp with
      | inl h1 =>
        subst h1
        simpa using hacc
      | inr h2 => exact ih [] (by simp) p h2
    · rw [if_neg hb] at hp
      exact ih (b :: acc) (by
        intro hm
        cases List.mem_cons.mp hm with
        | inl h1 => exact hb h1.symm
        | inr h2 => exact hacc h2) p hp

theorem drainRun_split : ∀ (bs acc : List Nat), 10 ∉ acc →
    (∀ p ∈ specSplitAux acc bs, (utf8DecodeCp p).isSome = true) →
    drainRun (splitAfterNL acc bs) =
      ((specSplitAux acc bs).map (fun p => (utf8DecodeCp p).getD []), false) := by
  intro bs
  induction bs with
  | nil =>
    intro acc hacc hdec
    by_cases h : acc = []
    · subst h
      simp [splitAfterNL, specSplitAux, drainRun]
    · rw [splitAfterNL, if_neg h, specSplitAux, if_neg h]
      have hd := hdec acc.reverse
        (by rw [specSplitAux, if_neg h]; exact List.mem_cons_self _ _)
      obtain ⟨l, hl⟩ := Option.isSome_iff_exists.mp hd
      have h10 : 10 ∉ l :=
        utf8DecodeCp_no_ten acc.reverse l hl (fun hm => hacc (List.mem_reverse.mp hm))
      simp [drainRun, hl, rstripNL_of_no_ten l h10]
  | cons b bs' ih =>
    intro acc hacc hdec
    by_cases hb : b = 10
    · subst hb
      rw [splitAfterNL, if_pos rfl, specSplitAux, if_pos rfl]
      have hdhead := hdec acc.reverse
        (by rw [specSplitAux, if_pos rfl]; exact List.mem_cons_self _ _)
      obtain ⟨l, hl⟩ := Option.isSome_iff_exists.mp hdhead
      have h10 : 10 ∉ l :=
        utf8DecodeCp_no_ten acc.reverse l hl (fun hm => hacc (List.mem_reverse.mp hm))
      have hchunk : utf8DecodeCp (acc.reverse ++ [10]) = some (l ++ [10]) :=
        utf8DecodeCp_appendCp acc.reverse [10] l [10] hl (by decide)
      have htail := ih [] (by simp)
        (fun p hp => hdec p (by rw [specSplitAux, if_pos rfl]; exact List.mem_cons_of_mem _ hp))
      simp [drainRun, hchunk, htail, rstripNL_append_ten, rstripNL_of_no_ten l h10, hl]
    · rw [splitAfterNL, if_neg hb, specSplitAux, if_neg hb]
      refine ih (b :: acc) ?_ ?_
      · intro hm
        cases List.mem_cons.mp hm with
        | inl h1 => exact hb h1.symm
        | inr h2 => exact hacc h2
      · intro p hp
        exact hdec p (by rw [specSplitAux, if_neg hb]; exact hp)

theorem specSplitAux_length : ∀ (bs acc : List Nat),
    (specSplitAux acc bs).length =
      bs.count 10 + (if bs = [] then (if acc = [] then 0 else 1)
                     else (if hasFragment bs = true then 1 else 0)) := by
  intro bs
  induction bs with
  | nil =>
    intro acc
    by_cases h : acc = [] <;> simp [specSplitAux, h]
  | cons b bs' ih =>
    intro acc
    by_cases hb : b = 10
    · subst hb
      rw [specSplitAux, if_pos rfl]
      simp only [List.length_cons, ih []]
      cases bs' with
      | nil => simp [hasFragment]
      | cons c t =>
        simp only [List.count_cons, hasFragment, List.getLast?_cons_cons]
        simp
        omega
    · rw [specSplitAux, if_neg hb, ih (b :: acc)]
      cases bs' with
      | nil => simp [hasFragment, List.count_cons, hb]
      | cons c t =>
        simp only [List.count_cons, hasFragment, List.getLast?_cons_cons]
        simp [hb]

/-- C2 (counterexample): the byte stream `FF 0A 61 0A` carries one
malformed line (`FF`, not valid UTF-8) followed by one well-formed line
(`a`).  The strict `decode("utf-8")` raises `UnicodeDecodeError`, the
drain thread dies (`crashed = true`), and the subsequent well-formed
line is never produced — the drain is not total and does not continue. -/
theorem drain_crash_cex :
    enqueueOutput [255, 10, 97, 10] = ([], true) ∧
      readlineChunks [255, 10, 97, 10] = [[255, 10], [97, 10]] ∧
      utf8DecodeCp [255, 10] = none ∧ utf8DecodeCp [97, 10] = some [97, 10] := by
  decide

/-- C2 (amended): the drain is NOT total with respect to malformed
UTF-8.  Its output is the decoded, newline-stripped form of the longest
prefix of chunks that decode, and the drain crashes (the thread dies
with an uncaught `UnicodeDecodeError`) exactly when some chunk fails to
decode; every line after the first malformed one is lost. -/
theorem drain_stops_at_malformed : ∀ chs : List (List Nat),
    drainRun chs =
      ((chs.takeWhile (fun c => (utf8DecodeCp c).isSome)).map
        (fun c => rstripNL ((utf8DecodeCp c).getD [])),
       chs.any (fun c => (utf8DecodeCp c).isNone)) := by
  intro chs
  induction chs with
  | nil => rfl
  | cons c chs' ih =>
    cases hd : utf8DecodeCp c with
    | none => simp [drainRun, hd, List.takeWhile_cons, List.any_cons]
    | some l => simp [drainRun, hd, ih, List.takeWhile_cons, List.any_cons]

/-- C6 (counterexample): the stream `FF 0A` contains one terminator
byte, so the claim demands exactly one Line, but the malformed first
chunk kills the drain and zero lines are produced. -/
theorem malformed_count_cex :
    List.count 10 [255, 10] = 1 ∧ hasFragment [255, 10] = false ∧
      (enqueueOutput [255, 10]).1.length = 0 := by
  decide

/-- C6 (amended): for every byte stream all of whose line parts are
valid UTF-8, the drain produces exactly the decoded parts, in original
order — one Line per terminator byte plus the final unterminated
fragment, which is emitted (not discarded) as one final partial Line —
and no produced Line contains a terminator. -/
theorem drain_produces_spec_lines (bs : List Nat)
    (h : ∀ p ∈ specLineSplit bs, (utf8DecodeCp p).isSome = true) :
    enqueueOutput bs =
      ((specLineSplit bs).map (fun p => (utf8DecodeCp p).getD []), false) ∧
    (specLineSplit bs).length =
      bs.count 10 + (if hasFragment bs = true then 1 else 0) ∧
    ∀ line ∈ (enqueueOutput bs).1, 10 ∉ line := by
  have h1 := drainRun_split bs [] (by simp) h
  refine ⟨h1, ?_, ?_⟩
  · rw [specLineSplit, specSplitAux_length bs []]
    cases bs with
    | nil => decide
    | cons b t => simp
  · intro line hline
    rw [show enqueueOutput bs = ((specLineSplit bs).map
          (fun p => (utf8DecodeCp p).getD []), false) from h1] at hline
    simp only [List.mem_map] at hline
    obtain ⟨p, hp, hline2⟩ := hline
    subst hline2
    obtain ⟨l, hl⟩ := Option.isSome_iff_exists.mp (h p hp)
    rw [hl]
    have h10p : 10 ∉ p := specSplitAux_no_ten bs [] (by simp) p hp
    simpa using utf8DecodeCp_no_ten p l hl h10p

/-- C10: the drain strips only trailing `"\n"` characters.  For an
engine that terminates every line with CRLF, each delivered Line is the
decoded payload with its trailing `"\r"` (code point 13) kept; and the
search loop stores the matching `bestmove` line verbatim, so the result
retains the trailing `"\r"`. -/
theorem crlf_trailing_cr_kept :
    (∀ segs : List (List Nat),
        (∀ s ∈ segs, 10 ∉ s ∧ (utf8DecodeCp s).isSome = true) →
        enqueueOutput (crlfStream segs) =
          (segs.map (fun s => (utf8DecodeCp s).getD [] ++ [13]), false)) ∧
    (∀ (l : String) (ls : List String), isBestmoveLine l = true →
        searchWait (l :: ls) = some ([l], l, ls)) := by
  constructor
  · intro segs
    induction segs with
    | nil => intro _; rfl
    | cons s rest ih =>
      intro hseg
      obtain ⟨h10s, hsome⟩ := hseg s (List.mem_cons_self s rest)
      obtain ⟨l, hl⟩ := Option.isSome_iff_exists.mp hsome
      have hrest := ih (fun x hx => hseg x (List.mem_cons_of_mem s hx))
      have hshape : crlfStream (s :: rest) = (s ++ [13]) ++ 10 :: crlfStream rest := by
        rw [crlfStream]
        simp
      have hno10 : 10 ∉ s ++ [13] := by
        intro hm
        cases List.mem_append.mp hm with
        | inl h1 => exact h10s h1
        | inr h2 => simp at h2
      have hchunk : utf8DecodeCp (s ++ [13, 10]) = some (l ++ [13, 10]) :=
        utf8DecodeCp_appendCp s [13, 10] l [13, 10] hl (by decide)
      have hr : rstripNL (l ++ [13, 10]) = l ++ [13] := by
        rw [show l ++ [13, 10] = (l ++ [13]) ++ [10] by simp,
          rstripNL_append_ten, rstripNL_append_ne l 13 (by omega)]
      rw [show enqueueOutput (crlfStream (s :: rest)) =
            drainRun (splitAfterNL [] (crlfStream (s :: rest))) from rfl,
          hshape, splitAfterNL_append_nl (s ++ [13]) [] (crlfStream rest) hno10]
      simp only [List.reverse_nil, List.nil_append]
      have htail : drainRun (splitAfterNL [] (crlfStream rest)) =
          (rest.map (fun x => (utf8DecodeCp x).getD [] ++ [13]), false) := hrest
      simp [drainRun, hchunk, htail, hr, hl]
  · intro l ls h
    simp [searchWait, h]

theorem drain_produces_spec_lines_witness :
    enqueueOutput [97, 98, 10, 99, 100] = ([[97, 98], [99, 100]], false) ∧
      (specLineSplit [97, 98, 10, 99, 100]).length = 2 := by
  have h := drain_produces_spec_lines [97, 98, 10, 99, 100] (by decide)
  exact ⟨h.1.trans (by decide), h.2.1.trans (by decide)⟩

theorem crlf_trailing_cr_kept_witness :
    enqueueOutput (crlfStream [[98, 99]]) = ([[98, 99, 13]], false) ∧
      searchWait ["bestmove Hh2n\r"] =
        some (["bestmove Hh2n\r"], "bestmove Hh2n\r", []) :=
  ⟨(crlf_trailing_cr_kept.1 [[98, 99]] (by decide)).trans (by decide),
   crlf_trailing_cr_kept.2 "bestmove Hh2n\r" [] (by decide)⟩

end Mypy
